import Mathlib

/- Verification of the linear-referencing / segmentation core of
`streetspace/geometry.py`.

Coordinates are modelled as exact real pairs.  The operations that the
source delegates to the external vector-geometry library (projection of a
point to an arc-length distance, interpolation, intersection, containment,
line merging, point-to-line distance) are modelled as parameters collected
in a `Geo` structure, mirroring the spec's external-interface contract
(spec section 6); everything the repository itself computes (coordinate
bookkeeping, sorting, cut flags, piece extraction, azimuth arithmetic,
argument checks) is embedded directly. -/

namespace StreetSpace

/-- A planar coordinate, as stored in a Shapely coordinate sequence. -/
abbrev Pt : Type := ℝ × ℝ

/-- Euclidean distance between two coordinates. -/
noncomputable def dist2 (a b : Pt) : ℝ :=
  Real.sqrt ((b.1 - a.1) ^ 2 + (b.2 - a.2) ^ 2)

/-- Length of a polyline: the sum of consecutive Euclidean segment
lengths (Shapely's `LineString.length`). -/
noncomputable def polyLength : List Pt → ℝ
  | [] => 0
  | [_] => 0
  | a :: b :: r => dist2 a b + polyLength (b :: r)

/-- Total length of a list of polylines. -/
noncomputable def sumLengths (ls : List (List Pt)) : ℝ :=
  (ls.map polyLength).sum

/-- Embedding of a coordinate into the Euclidean plane, used to borrow
metric facts from Mathlib. -/
noncomputable def toE (p : Pt) : EuclideanSpace ℝ (Fin 2) := ![p.1, p.2]

theorem dist2_eq_dist (a b : Pt) : dist2 a b = dist (toE a) (toE b) := by
  rw [EuclideanSpace.dist_eq]
  simp only [toE, Fin.sum_univ_two, Matrix.cons_val_zero, Matrix.cons_val_one,
    Matrix.head_cons, Real.dist_eq, sq_abs, dist2]
  ring_nf

theorem toE_injective : Function.Injective toE := by
  intro a b h
  have h0 := congrFun h 0
  have h1 := congrFun h 1
  simp only [toE, Matrix.cons_val_zero, Matrix.cons_val_one, Matrix.head_cons] at h0 h1
  exact Prod.ext h0 h1

theorem dist2_nonneg (a b : Pt) : 0 ≤ dist2 a b := Real.sqrt_nonneg _

theorem dist2_pos_of_ne {a b : Pt} (h : a ≠ b) : 0 < dist2 a b := by
  rw [dist2_eq_dist]
  exact dist_pos.mpr (fun he => h (toE_injective he))

theorem dist2_triangle (a b c : Pt) : dist2 a c ≤ dist2 a b + dist2 b c := by
  rw [dist2_eq_dist, dist2_eq_dist, dist2_eq_dist]
  exact dist_triangle _ _ _

theorem polyLength_nonneg : ∀ l : List Pt, 0 ≤ polyLength l
  | [] => le_refl 0
  | [_] => le_refl 0
  | a :: b :: r => by
    have h1 := dist2_nonneg a b
    have h2 := polyLength_nonneg (b :: r)
    simp only [polyLength]
    linarith

theorem polyLength_glue (m : Pt) (ys : List Pt) :
    ∀ xs : List Pt, polyLength (xs ++ [m]) + polyLength (m :: ys) =
      polyLength (xs ++ m :: ys)
  | [] => by simp [polyLength]
  | [x] => by simp [polyLength]
  | x :: x2 :: xs => by
    have ih := polyLength_glue m ys (x2 :: xs)
    simp only [List.cons_append, List.append_eq, polyLength] at ih ⊢
    linarith

theorem polyLength_ge_ends : ∀ (l : List Pt) (a b : Pt),
    dist2 a b ≤ polyLength (a :: l ++ [b])
  | [], a, b => by simp [polyLength]
  | x :: l, a, b => by
    have ih := polyLength_ge_ends l x b
    have htri := dist2_triangle a x b
    simp only [List.cons_append, List.append_eq, polyLength] at ih ⊢
    linarith

/-- Membership of a point on the straight segment from `a` to `b`, at
convex parameter `t`. -/
def onSeg (a b p : Pt) (t : ℝ) : Prop :=
  0 ≤ t ∧ t ≤ 1 ∧ p.1 = a.1 + t * (b.1 - a.1) ∧ p.2 = a.2 + t * (b.2 - a.2)

theorem onSeg_self_left (a b : Pt) : onSeg a b a 0 := by
  refine ⟨le_refl 0, zero_le_one, ?_, ?_⟩ <;> ring

theorem onSeg_self_right (a b : Pt) : onSeg a b b 1 := by
  refine ⟨zero_le_one, le_refl 1, ?_, ?_⟩ <;> ring

theorem dist2_onSeg {a b p q : Pt} {t s : ℝ} (hp : onSeg a b p t)
    (hq : onSeg a b q s) (hts : t ≤ s) : dist2 p q = (s - t) * dist2 a b := by
  obtain ⟨_, _, hp1, hp2⟩ := hp
  obtain ⟨_, _, hq1, hq2⟩ := hq
  have h1 : (q.1 - p.1) ^ 2 + (q.2 - p.2) ^ 2 =
      (s - t) ^ 2 * ((b.1 - a.1) ^ 2 + (b.2 - a.2) ^ 2) := by
    rw [hp1, hp2, hq1, hq2]; ring
  rw [dist2, dist2, h1, Real.sqrt_mul (sq_nonneg _), Real.sqrt_sq (by linarith)]

/-- A run of intermediate points lying on the segment from `a` to `b`,
at nondecreasing convex parameters, all at least `t`. -/
inductive SegChain (a b : Pt) : ℝ → List Pt → Prop
  | nil (t : ℝ) : SegChain a b t []
  | cons {t s : ℝ} {p : Pt} {ps : List Pt} :
      onSeg a b p s → t ≤ s → SegChain a b s ps → SegChain a b t (p :: ps)

theorem segChain_length {a b q : Pt} {t : ℝ} {ps : List Pt}
    (h : SegChain a b t ps) (hq : onSeg a b q t) :
    polyLength (q :: ps ++ [b]) = (1 - t) * dist2 a b := by
  induction h generalizing q with
  | nil t =>
    have := dist2_onSeg hq (onSeg_self_right a b) hq.2.1
    simpa [polyLength] using this
  | cons hp hts _ ih =>
    rename_i t s p ps _
    have h1 : dist2 q p = (s - t) * dist2 a b := dist2_onSeg hq hp hts
    have h2 := ih hp
    have hs1 : s ≤ 1 := hp.2.1
    simp only [List.cons_append, List.append_eq, polyLength] at h2 ⊢
    rw [h1, h2]; ring

/-- The second list refines the first polyline by inserting, between each
pair of consecutive vertices, points that lie on the connecting segment in
order.  This is the exact sense in which a cut point "lies on the curve". -/
inductive Inserted : List Pt → List Pt → Prop
  | single (a : Pt) : Inserted [a] [a]
  | step {a b : Pt} {rest chain ps : List Pt} :
      SegChain a b 0 ps → Inserted (b :: rest) chain →
      Inserted (a :: b :: rest) (a :: (ps ++ chain))

theorem inserted_head : ∀ {base chain : List Pt}, Inserted base chain →
    chain.head? = base.head?
  | _, _, .single a => rfl
  | _, _, .step _ _ => rfl

theorem inserted_length {base chain : List Pt} (h : Inserted base chain) :
    polyLength chain = polyLength base := by
  induction h with
  | single a => rfl
  | step hseg hins ih =>
    rename_i a b rest chain ps
    obtain ⟨tail, htail⟩ : ∃ tail, chain = b :: tail := by
      have hh := inserted_head hins
      cases chain with
      | nil => simp at hh
      | cons c tail =>
        simp only [List.head?] at hh
        exact ⟨tail, by rw [(Option.some_injective _ hh.symm : b = c)]⟩
    subst htail
    have hglue := polyLength_glue b tail (a :: ps)
    have hfirst : polyLength ((a :: ps) ++ [b]) = dist2 a b := by
      have := segChain_length hseg (onSeg_self_left a b)
      simpa using this
    have : polyLength ((a :: ps) ++ b :: tail) = dist2 a b + polyLength (b :: tail) := by
      rw [← hglue, hfirst]
    simp only [List.cons_append] at this
    simp only [List.cons_append, polyLength, this, ih]

/-- Lexicographic comparison of coordinate tuples, as Python compares
`(x, y)` tuples. -/
def ptLe (a b : Pt) : Prop := a.1 < b.1 ∨ (a.1 = b.1 ∧ a.2 ≤ b.2)

/-- Lexicographic comparison of `(distance, coordinate)` tuples, the order
used by `sorted(zip(dists, coords))` in `split_line_at_points`. -/
def pairLe (a b : ℝ × Pt) : Prop := a.1 < b.1 ∨ (a.1 = b.1 ∧ ptLe a.2 b.2)

/-- Lexicographic comparison of `(distance, cut-flag)` tuples, the order
used by `sorted(zip(dists, cuts))` in `split_line_at_points`. -/
def cutLe (a b : ℝ × ℕ) : Prop := a.1 < b.1 ∨ (a.1 = b.1 ∧ a.2 ≤ b.2)

noncomputable instance : DecidableRel ptLe := fun _ _ => Classical.dec _

noncomputable instance : DecidableRel pairLe := fun _ _ => Classical.dec _

noncomputable instance : DecidableRel cutLe := fun _ _ => Classical.dec _

instance : IsTotal Pt ptLe := by
  constructor
  intro a b
  rcases lt_trichotomy a.1 b.1 with h | h | h
  · exact Or.inl (Or.inl h)
  · rcases le_total a.2 b.2 with h2 | h2
    · exact Or.inl (Or.inr ⟨h, h2⟩)
    · exact Or.inr (Or.inr ⟨h.symm, h2⟩)
  · exact Or.inr (Or.inl h)

instance : IsTrans Pt ptLe := by
  constructor
  intro a b c hab hbc
  rcases hab with h1 | ⟨h1, h1b⟩ <;> rcases hbc with h2 | ⟨h2, h2b⟩
  · exact Or.inl (lt_trans h1 h2)
  · exact Or.inl (h2 ▸ h1)
  · exact Or.inl (h1 ▸ h2)
  · exact Or.inr ⟨h1.trans h2, h1b.trans h2b⟩

instance : IsAntisymm Pt ptLe := by
  constructor
  intro a b hab hba
  rcases hab with h1 | ⟨h1, h1b⟩ <;> rcases hba with h2 | ⟨h2, h2b⟩
  · exact absurd h2 (lt_asymm h1)
  · exact absurd h1 (h2 ▸ lt_irrefl _)
  · exact absurd h2 (h1 ▸ lt_irrefl _)
  · exact Prod.ext h1 (le_antisymm h1b h2b)

instance : IsTotal (ℝ × Pt) pairLe := by
  constructor
  intro a b
  rcases lt_trichotomy a.1 b.1 with h | h | h
  · exact Or.inl (Or.inl h)
  · rcases (IsTotal.total (r := ptLe) a.2 b.2) with h2 | h2
    · exact Or.inl (Or.inr ⟨h, h2⟩)
    · exact Or.inr (Or.inr ⟨h.symm, h2⟩)
  · exact Or.inr (Or.inl h)

instance : IsTrans (ℝ × Pt) pairLe := by
  constructor
  intro a b c hab hbc
  rcases hab with h1 | ⟨h1, h1b⟩ <;> rcases hbc with h2 | ⟨h2, h2b⟩
  · exact Or.inl (lt_trans h1 h2)
  · exact Or.inl (h2 ▸ h1)
  · exact Or.inl (h1 ▸ h2)
  · exact Or.inr ⟨h1.trans h2, Trans.trans h1b h2b⟩

instance : IsAntisymm (ℝ × Pt) pairLe := by
  constructor
  intro a b hab hba
  rcases hab with h1 | ⟨h1, h1b⟩ <;> rcases hba with h2 | ⟨h2, h2b⟩
  · exact absurd h2 (lt_asymm h1)
  · exact absurd h1 (h2 ▸ lt_irrefl _)
  · exact absurd h2 (h1 ▸ lt_irrefl _)
  · exact Prod.ext h1 (IsAntisymm.antisymm (r := ptLe) _ _ h1b h2b)

instance : IsTotal (ℝ × ℕ) cutLe := by
  constructor
  intro a b
  rcases lt_trichotomy a.1 b.1 with h | h | h
  · exact Or.inl (Or.inl h)
  · rcases le_total a.2 b.2 with h2 | h2
    · exact Or.inl (Or.inr ⟨h, h2⟩)
    · exact Or.inr (Or.inr ⟨h.symm, h2⟩)
  · exact Or.inr (Or.inl h)

instance : IsTrans (ℝ × ℕ) cutLe := by
  constructor
  intro a b c hab hbc
  rcases hab with h1 | ⟨h1, h1b⟩ <;> rcases hbc with h2 | ⟨h2, h2b⟩
  · exact Or.inl (lt_trans h1 h2)
  · exact Or.inl (h2 ▸ h1)
  · exact Or.inl (h1 ▸ h2)
  · exact Or.inr ⟨h1.trans h2, h1b.trans h2b⟩

instance : IsAntisymm (ℝ × ℕ) cutLe := by
  constructor
  intro a b hab hba
  rcases hab with h1 | ⟨h1, h1b⟩ <;> rcases hba with h2 | ⟨h2, h2b⟩
  · exact absurd h2 (lt_asymm h1)
  · exact absurd h1 (h2 ▸ lt_irrefl _)
  · exact absurd h2 (h1 ▸ lt_irrefl _)
  · exact Prod.ext h1 (le_antisymm h1b h2b)

/-- Python's `cuts.index(1, i + 1)`: the position of the next cut flag
strictly after `i`.  (At every call site in `split_line_at_points` a later
`1` exists, because the final appended flag is `1`, so `list.index` never
raises there.) -/
def nextCut (cuts : List ℕ) (i : ℕ) : ℕ := i + 1 + (cuts.drop (i + 1)).indexOf 1

/-- The piece-extraction loop at the end of `split_line_at_points`: for
every index `i` except the last whose cut flag is `1`, emit the coordinate
slice `coords[i : nextCut cuts i + 1]`. -/
def pieces (coords : List Pt) (cuts : List ℕ) : List (List Pt) :=
  ((List.range (coords.length - 1)).filter (fun i => cuts.getD i 0 == 1)).map
    (fun i => (coords.take (nextCut cuts i + 1)).drop i)

/-- Flattened coordinates of a run of cut blocks: each block is a cut
coordinate followed by its non-cut interior coordinates. -/
def blocksFlat : List (Pt × List Pt) → List Pt
  | [] => []
  | (c, I) :: bs => (c :: I) ++ blocksFlat bs

/-- Cut flags matching `blocksFlat`: `1` at each block head, `0` inside. -/
def blocksCuts : List (Pt × List Pt) → List ℕ
  | [] => []
  | (_, I) :: bs => (1 :: List.replicate I.length 0) ++ blocksCuts bs

/-- The pieces a run of blocks should produce: consecutive cut coordinates
with the interior coordinates kept in between, the final piece closed by
the appended last coordinate. -/
def chainPieces : List (Pt × List Pt) → Pt → List (List Pt)
  | [], _ => []
  | [(c, I)], f => [c :: (I ++ [f])]
  | (c, I) :: (c2, I2) :: bs, f => (c :: (I ++ [c2])) :: chainPieces ((c2, I2) :: bs) f

theorem getD_zeros : ∀ n k : ℕ, (List.replicate n (0 : ℕ)).getD k 0 = 0
  | 0, _ => rfl
  | _ + 1, 0 => rfl
  | n + 1, k + 1 => by
    rw [List.replicate_succ, List.getD_cons_succ]
    exact getD_zeros n k

theorem indexOf_zeros (rest : List ℕ) :
    ∀ n : ℕ, (List.replicate n 0 ++ 1 :: rest).indexOf 1 = n
  | 0 => by simp
  | n + 1 => by
    rw [List.replicate_succ, List.cons_append,
      List.indexOf_cons_ne _ (by decide : (0 : ℕ) ≠ 1), indexOf_zeros rest n]

theorem filter_cut_block (n : ℕ) (cuts : List ℕ) (h0 : cuts.getD 0 0 = 1)
    (hk : ∀ k, k < n → cuts.getD (k + 1) 0 = 0) :
    (List.range (n + 1)).filter (fun i => cuts.getD i 0 == 1) = [0] := by
  rw [List.range_succ_eq_map, List.filter_cons_of_pos (by simpa using h0)]
  have : (List.map Nat.succ (List.range n)).filter (fun i => cuts.getD i 0 == 1) = [] := by
    rw [List.filter_eq_nil_iff]
    intro a ha
    obtain ⟨k, hk1, rfl⟩ := List.mem_map.mp ha
    have h2 := hk k (List.mem_range.mp hk1)
    simp only [Nat.succ_eq_add_one, beq_iff_eq, ← List.getD_eq_getElem?_getD, h2]
    decide
  rw [this]

/-- One step of the piece-extraction loop: a leading cut block followed by
anything whose first flag is a cut contributes its run as the first piece,
and the rest of the loop is the loop on the remainder. -/
theorem pieces_step (c c2 : Pt) (I rc2 : List Pt) (ru2 : List ℕ) :
    pieces ((c :: I) ++ (c2 :: rc2)) ((1 :: List.replicate I.length 0) ++ (1 :: ru2)) =
      (c :: (I ++ [c2])) :: pieces (c2 :: rc2) (1 :: ru2) := by
  have hlen : ((c :: I) ++ (c2 :: rc2)).length - 1 = (I.length + 1) + rc2.length := by
    rw [List.length_append, List.length_cons, List.length_cons]
    omega
  rw [pieces, hlen, List.range_add, List.filter_append]
  have hfirst : (List.range (I.length + 1)).filter
      (fun i => ((1 :: List.replicate I.length 0) ++ (1 :: ru2)).getD i 0 == 1) = [0] := by
    apply filter_cut_block
    · rw [List.getD_append _ _ _ _ (by simp), List.getD_cons_zero]
    · intro k hk
      rw [List.getD_append _ _ _ _ (by simp; omega), List.getD_cons_succ]
      exact getD_zeros _ _
  rw [hfirst]
  have hshift : ∀ k : ℕ,
      ((1 :: List.replicate I.length 0) ++ (1 :: ru2)).getD (I.length + 1 + k) 0
        = (1 :: ru2).getD k 0 := by
    intro k
    rw [List.getD_append_right _ _ _ _ (by simp)]
    congr 1
    rw [List.length_cons, List.length_replicate]
    omega
  have hfilter2 : (List.map (fun x => I.length + 1 + x) (List.range rc2.length)).filter
      (fun i => ((1 :: List.replicate I.length 0) ++ (1 :: ru2)).getD i 0 == 1)
      = List.map (fun x => I.length + 1 + x)
        ((List.range rc2.length).filter (fun k => (1 :: ru2).getD k 0 == 1)) := by
    rw [List.filter_map]
    congr 1
    apply List.filter_congr
    intro k _
    simp only [Function.comp_apply, hshift k]
  rw [hfilter2, List.map_append, List.map_map]
  simp only [List.map_cons, List.map_nil, List.singleton_append]
  have hnext0 : nextCut ((1 :: List.replicate I.length 0) ++ (1 :: ru2)) 0 = I.length + 1 := by
    rw [nextCut]
    have hdrop : ((1 :: List.replicate I.length 0) ++ (1 :: ru2)).drop 1 =
        List.replicate I.length 0 ++ (1 :: ru2) := by simp
    rw [hdrop, indexOf_zeros ru2 I.length]
    omega
  have hslice0 : (((c :: I) ++ (c2 :: rc2)).take
      (nextCut ((1 :: List.replicate I.length 0) ++ (1 :: ru2)) 0 + 1)).drop 0
      = c :: (I ++ [c2]) := by
    rw [hnext0, List.drop_zero]
    have h1 : I.length + 1 + 1 = (c :: I).length + 1 := by rw [List.length_cons]
    rw [h1, List.take_append]
    simp
  rw [hslice0]
  congr 1
  have hslices : ∀ k ∈ (List.range rc2.length).filter
        (fun k => (1 :: ru2).getD k 0 == 1),
      ((((c :: I) ++ (c2 :: rc2)).take
        (nextCut ((1 :: List.replicate I.length 0) ++ (1 :: ru2)) (I.length + 1 + k) + 1)).drop
        (I.length + 1 + k))
      = (((c2 :: rc2).take (nextCut (1 :: ru2) k + 1)).drop k) := by
    intro k _
    have hdropc : ((1 :: List.replicate I.length 0) ++ (1 :: ru2)).drop (I.length + 1 + k + 1)
        = (1 :: ru2).drop (k + 1) := by
      have h2 : I.length + 1 + k + 1 = (1 :: List.replicate I.length 0).length + (k + 1) := by
        rw [List.length_cons, List.length_replicate]
        omega
      rw [h2, List.drop_append]
    have hnextk : nextCut ((1 :: List.replicate I.length 0) ++ (1 :: ru2)) (I.length + 1 + k)
        = (c :: I).length + nextCut (1 :: ru2) k := by
      rw [nextCut, nextCut, hdropc, List.length_cons]
      omega
    rw [hnextk]
    have htake : ((c :: I) ++ (c2 :: rc2)).take ((c :: I).length + nextCut (1 :: ru2) k + 1)
        = (c :: I) ++ (c2 :: rc2).take (nextCut (1 :: ru2) k + 1) := by
      have h3 : (c :: I).length + nextCut (1 :: ru2) k + 1 =
          (c :: I).length + (nextCut (1 :: ru2) k + 1) := by omega
      rw [h3, List.take_append]
    rw [htake]
    have h4 : I.length + 1 + k = (c :: I).length + k := by rw [List.length_cons]
    rw [h4, List.drop_append]
  have hgoal := List.map_congr_left hslices
  rw [pieces]
  have hlen2 : (c2 :: rc2).length - 1 = rc2.length := by rw [List.length_cons]; omega
  rw [hlen2]
  exact hgoal

/-- Key structural fact: on a sorted coordinate list that decomposes into
cut blocks (head flagged `1`, interiors flagged `0`) with the last
coordinate appended and flagged, the piece-extraction loop produces
exactly the runs between consecutive cut coordinates. -/
theorem pieces_blocks : ∀ (bs : List (Pt × List Pt)) (f : Pt), bs ≠ [] →
    pieces (blocksFlat bs ++ [f]) (blocksCuts bs ++ [1]) = chainPieces bs f := by
  intro bs
  induction bs with
  | nil => intro f h; exact absurd rfl h
  | cons b bs ih =>
    obtain ⟨c, I⟩ := b
    intro f _
    cases bs with
    | nil =>
      have hco : blocksFlat [(c, I)] ++ [f] = (c :: I) ++ (f :: []) := by
        simp [blocksFlat]
      have hcu : blocksCuts [(c, I)] ++ [1] =
          (1 :: List.replicate I.length 0) ++ (1 :: []) := by
        simp [blocksCuts]
      rw [hco, hcu, pieces_step]
      have htail : pieces (f :: []) (1 :: []) = [] := rfl
      rw [htail]
      simp [chainPieces]
    | cons b2 bs2 =>
      obtain ⟨c2, I2⟩ := b2
      have hrc : blocksFlat ((c2, I2) :: bs2) ++ [f] =
          c2 :: (I2 ++ (blocksFlat bs2 ++ [f])) := by
        simp [blocksFlat]
      have hrcu : blocksCuts ((c2, I2) :: bs2) ++ [1] =
          1 :: (List.replicate I2.length 0 ++ (blocksCuts bs2 ++ [1])) := by
        simp [blocksCuts]
      have hco : blocksFlat ((c, I) :: (c2, I2) :: bs2) ++ [f] =
          (c :: I) ++ (c2 :: (I2 ++ (blocksFlat bs2 ++ [f]))) := by
        simp [blocksFlat]
      have hcu : blocksCuts ((c, I) :: (c2, I2) :: bs2) ++ [1] =
          (1 :: List.replicate I.length 0) ++
            (1 :: (List.replicate I2.length 0 ++ (blocksCuts bs2 ++ [1]))) := by
        simp [blocksCuts]
      rw [hco, hcu, pieces_step, ← hrc, ← hrcu, ih f (by simp)]
      rfl

/-- The pieces of a block run tile its flattened chain: their lengths add
up to the chain's length. -/
theorem sumLengths_chainPieces : ∀ (bs : List (Pt × List Pt)) (f : Pt), bs ≠ [] →
    sumLengths (chainPieces bs f) = polyLength (blocksFlat bs ++ [f]) := by
  intro bs
  induction bs with
  | nil => intro f h; exact absurd rfl h
  | cons b bs ih =>
    obtain ⟨c, I⟩ := b
    intro f _
    cases bs with
    | nil => simp [chainPieces, sumLengths, blocksFlat]
    | cons b2 bs2 =>
      obtain ⟨c2, I2⟩ := b2
      have ih2 := ih f (by simp)
      have hhead : blocksFlat ((c2, I2) :: bs2) ++ [f] =
          c2 :: ((I2 ++ blocksFlat bs2) ++ [f]) := by
        simp [blocksFlat]
      have hglue := polyLength_glue c2 ((I2 ++ blocksFlat bs2) ++ [f]) (c :: I)
      simp only [chainPieces, sumLengths, List.map_cons, List.sum_cons]
      rw [show sumLengths (chainPieces ((c2, I2) :: bs2) f) =
        (List.map polyLength (chainPieces ((c2, I2) :: bs2) f)).sum from rfl] at ih2
      rw [ih2, hhead]
      rw [show (c :: (I ++ [c2])) = ((c :: I) ++ [c2]) by simp] at *
      rw [hglue]
      congr 1
      simp [blocksFlat]

/-- Every piece of a block run joins two consecutive cut coordinates; if
those are distinct, the piece has strictly positive length. -/
theorem chainPieces_pos : ∀ (bs : List (Pt × List Pt)) (f : Pt),
    List.Chain' (fun a b => a ≠ b) (bs.map Prod.fst ++ [f]) →
    ∀ s ∈ chainPieces bs f, 0 < polyLength s := by
  intro bs
  induction bs with
  | nil => intro f _ s hs; simp [chainPieces] at hs
  | cons b bs ih =>
    obtain ⟨c, I⟩ := b
    intro f hch s hs
    cases bs with
    | nil =>
      simp only [chainPieces, List.mem_singleton] at hs
      subst hs
      have hne : c ≠ f := by simpa using hch
      calc 0 < dist2 c f := dist2_pos_of_ne hne
        _ ≤ polyLength (c :: (I ++ [f])) := by
          have := polyLength_ge_ends I c f
          simpa using this
    | cons b2 bs2 =>
      obtain ⟨c2, I2⟩ := b2
      simp only [chainPieces, List.mem_cons] at hs
      have hch' : List.Chain' (fun a b => a ≠ b)
          (((c2, I2) :: bs2).map Prod.fst ++ [f]) := by
        simp only [List.map_cons, List.cons_append] at hch ⊢
        exact (List.chain'_cons.mp hch).2
      rcases hs with hs | hs
      · subst hs
        have hne : c ≠ c2 := by
          simp only [List.map_cons, List.cons_append] at hch
          exact (List.chain'_cons.mp hch).1
        calc 0 < dist2 c c2 := dist2_pos_of_ne hne
          _ ≤ polyLength (c :: (I ++ [c2])) := by
            have := polyLength_ge_ends I c c2
            simpa using this
      · exact ih f hch' s hs

/-- Result of Shapely's `linemerge`: either a single merged LineString or
a MultiLineString of the parts that could not be merged into one. -/
inductive LMres
  | line (coords : List Pt)
  | multi (parts : List (List Pt))

/-- The external geometry operations consumed by the core, per the spec's
external-interface contract (spec section 6): arc-length projection and
interpolation, intersection, containment, point-to-line distance, buffered
intersection tests, and line merging.  `proj l p` models
`LineString(l).project(Point(p))`, `interp l d` models
`LineString(l).interpolate(d)`, `intersectionPts l m` the list of points of
`LineString(l).intersection(LineString(m))`, `withinB l r` the containment
test of `l` in the polygon with exterior ring `r`, `distPL p l` the
distance `Point(p).distance(LineString(l))`, `intersectsAreaB l p r` the
test `LineString(l).intersects(Point(p).buffer(r))`, and `linemerge` the
`shapely.ops.linemerge` merge. -/
structure Geo where
  proj : List Pt → Pt → ℝ
  interp : List Pt → ℝ → Pt
  intersectsB : List Pt → List Pt → Bool
  intersectionPts : List Pt → List Pt → List Pt
  withinB : List Pt → List Pt → Bool
  distPL : Pt → List Pt → ℝ
  intersectsAreaB : List Pt → Pt → ℝ → Bool
  linemerge : List (List Pt) → LMres

/-- Initial cut-flag list of `split_line_at_points`: `[0]*len(coords)`
followed by `cuts[0] = 1`.  (For empty `coords` the Python index
assignment would raise; a LineString always has at least 2 coordinates, so
its `dropLast` is nonempty.) -/
def cutsInit : List Pt → List ℕ
  | [] => []
  | _ :: t => 1 :: t.map (fun _ => 0)

/-- Sorted coordinate sequence built inside `split_line_at_points` before
the final coordinate is appended:
`[p for (d, p) in sorted(zip(dists, coords))]`, where `coords` is the
line's coordinates without the last one plus the supplied points, and
`dists` their projections onto the line. -/
noncomputable def sortedCoordsOf (G : Geo) (lineCoords points : List Pt) : List Pt :=
  (((((lineCoords.dropLast ++ points).map (G.proj lineCoords)).zip
    (lineCoords.dropLast ++ points)).insertionSort pairLe)).map Prod.snd

/-- Sorted cut-flag sequence built inside `split_line_at_points` before
the final flag is appended: `[c for (d, c) in sorted(zip(dists, cuts))]`. -/
noncomputable def sortedCutsOf (G : Geo) (lineCoords points : List Pt) : List ℕ :=
  (((((lineCoords.dropLast ++ points).map (G.proj lineCoords)).zip
    (cutsInit lineCoords.dropLast ++ points.map (fun _ => 1))).insertionSort
      cutLe)).map Prod.snd

/-- Embedding of `split_line_at_points` (geometry.py lines 133-179):
append the true last coordinate (flagged as a cut) to the sorted
sequences, then run the piece-extraction loop. -/
noncomputable def split_line_at_points (G : Geo) (lineCoords points : List Pt) :
    List (List Pt) :=
  pieces (sortedCoordsOf G lineCoords points ++ [lineCoords.getLastD (0, 0)])
    (sortedCutsOf G lineCoords points ++ [1])

/-- Embedding of `endpoints` (geometry.py lines 462-479). -/
def endpointsF (l : List Pt) : Pt × Pt := (l.headD (0, 0), l.getLastD (0, 0))

/-- Embedding of `segment` (geometry.py lines 225-252): the middle piece
of the split at `{u, v}`, reversed when it does not already start at `u`. -/
noncomputable def segment (G : Geo) (lineCoords : List Pt) (u v : Pt) : List Pt :=
  let s := (split_line_at_points G lineCoords [u, v]).getD 1 []
  if (endpointsF s).1 = u then s else s.reverse

/-- Embedding of `shorten_line` (geometry.py lines 102-130).  The source
matches `ends` against three string options (any other value hits an
unbound variable); `clip_line_by_polygon` only calls it with the default
`'both'`. -/
noncomputable def shorten_line (G : Geo) (l : List Pt) (shorten_dist : ℝ)
    (ends : String) : List Pt :=
  if ends = "both" then
    segment G l (G.interp l shorten_dist) (G.interp l (polyLength l - shorten_dist))
  else if ends = "start" then
    segment G l (G.interp l shorten_dist) (endpointsF l).2
  else if ends = "end" then
    segment G l (endpointsF l).1 (G.interp l (polyLength l - shorten_dist))
  else []

/-- Embedding of `split_line_at_intersection` (geometry.py lines 181-202).
The Point / MultiPoint case split in the source only normalizes the
intersection into a list of points, which `Geo.intersectionPts` returns
directly. -/
noncomputable def split_line_at_intersection (G : Geo) (l other : List Pt) :
    List (List Pt) :=
  split_line_at_points G l (G.intersectionPts l other)

/-- Embedding of `clip_line_by_polygon` (geometry.py lines 765-793); the
polygon argument is represented by its exterior ring (`polygon.boundary`
in the source is that ring as a LineString).  `none` models the `None`
return. -/
noncomputable def clip_line_by_polygon (G : Geo) (line ring : List Pt) :
    Option LMres :=
  if G.intersectsB line ring then
    let split_lines := split_line_at_intersection G line ring
    let within_lines := split_lines.filter
      (fun l => G.withinB (shorten_line G l (1e-6) "both") ring)
    if within_lines.length = 1 then some (.line (within_lines.getD 0 []))
    else some (.multi within_lines)
  else if G.withinB (shorten_line G line (1e-6) "both") ring then
    some (.line line)
  else none

/-- The standard `atan2(y, x)`, as computed by `numpy.arctan2`. -/
noncomputable def atan2 (y x : ℝ) : ℝ :=
  if 0 < x then Real.arctan (y / x)
  else if x < 0 ∧ 0 ≤ y then Real.arctan (y / x) + Real.pi
  else if x < 0 ∧ y < 0 then Real.arctan (y / x) - Real.pi
  else if x = 0 ∧ 0 < y then Real.pi / 2
  else if x = 0 ∧ y < 0 then -(Real.pi / 2)
  else 0

/-- Embedding of `extend_line` (geometry.py lines 53-99).  The endpoint /
adjacent-point pairs are read off the coordinate list per the `ends`
selector; each new segment continues at the azimuth
`arctan2(end.x - adj.x, end.y - adj.y)` for a distance of `extend_dist`;
the function returns whatever `linemerge` produces on the original line
plus the new segments.  An unrecognized `ends` leaves `endpoints` unbound
in the source (a NameError), modelled as the error case. -/
noncomputable def extend_line (G : Geo) (l : List Pt) (extend_dist : ℝ)
    (ends : String) : Except String LMres :=
  let pairs : Option (List (Pt × Pt)) :=
    if ends = "both" then
      some [(l.headD (0, 0), l.getD 1 (0, 0)),
            (l.getLastD (0, 0), l.getD (l.length - 2) (0, 0))]
    else if ends = "start" then some [(l.headD (0, 0), l.getD 1 (0, 0))]
    else if ends = "end" then
      some [(l.getLastD (0, 0), l.getD (l.length - 2) (0, 0))]
    else none
  match pairs with
  | none => .error "NameError: name endpoints is not defined"
  | some eps =>
    let new_segments := eps.map (fun ep =>
      let az := atan2 (ep.1.1 - ep.2.1) (ep.1.2 - ep.2.2)
      [ep.1, (Real.sin az * extend_dist + ep.1.1, Real.cos az * extend_dist + ep.1.2)])
    .ok (G.linemerge ([l] ++ new_segments))

/-- Embedding of `azimuth` (geometry.py lines 418-441): bearing between
the endpoints, `arctan2(u.y - v.y, u.x - v.x)`, optionally converted to
degrees. -/
noncomputable def azimuthF (degrees : Bool) (l : List Pt) : ℝ :=
  let u := (endpointsF l).1
  let v := (endpointsF l).2
  let az := atan2 (u.2 - v.2) (u.1 - v.1)
  if degrees then az * 180 / Real.pi else az

/-- Embedding of `split_line_at_vertices` (geometry.py lines 444-459). -/
def split_line_at_vertices (l : List Pt) : List (List Pt) :=
  (List.range (l.length - 1)).map (fun i => [l.getD i (0, 0), l.getD (i + 1) (0, 0)])

/-- Python's `enumerate` over a list. -/
def enumL {α : Type} (l : List α) : List (ℕ × α) := (List.range l.length).zip l

/-- The cumulative-length list built by `azimuth_at_distance`:
`cumulative_lengths[i]` is the sum of the first `i + 1` segment lengths. -/
def cumulative (ls : List ℝ) : List ℝ := ((ls.scanl (· + ·) 0).tail)

/-- The reverse-scan selection loop of `azimuth_at_distance`: iterate over
`reversed(list(enumerate(cumulative_lengths)))` and overwrite `segment_ID`
whenever the cumulative length is at least `distance`; `none` models the
unbound `segment_ID` (a NameError) when no entry qualifies. -/
noncomputable def segmentIdAt (cums : List ℝ) (distance : ℝ) : Option ℕ :=
  ((enumL cums).reverse).foldl
    (fun acc p => if distance ≤ p.2 then some p.1 else acc) none

/-- Embedding of `azimuth_at_distance` (geometry.py lines 482-513). -/
noncomputable def azimuth_at_distance (l : List Pt) (distance : ℝ)
    (degrees : Bool) : Option ℝ :=
  match segmentIdAt (cumulative ((split_line_at_vertices l).map polyLength))
      distance with
  | none => none
  | some i => some (azimuthF degrees ((split_line_at_vertices l).getD i []))

/-- First-minimum selection over candidate `(index, line)` tuples using
the point-to-line distances, as in the selection block of
`closest_point_along_lines`.  (For several candidates the source selects
via `numpy.argsort`, whose tie order is implementation-defined — spec
section 9 calls nearest-search tie-breaking implementation-defined — so
ties resolve to the first minimum here.) -/
noncomputable def bestTuple (G : Geo) (sp : Pt) :
    List (ℕ × List Pt) → Option ((ℕ × List Pt) × ℝ)
  | [] => none
  | t :: ts =>
    match bestTuple G sp ts with
    | none => some (t, G.distPL sp t.2)
    | some (t2, d2) =>
      let d := G.distPL sp t.2
      if d ≤ d2 then some (t, d) else some (t2, d2)

/-- Embedding of `closest_point_along_lines` (geometry.py lines 255-343)
for candidates given as a plain list of lines, which the source enumerates
into `(index, line)` tuples.  A `search_distance` of `0` is falsy in
Python, exactly like `None`, in both the index check and the
distance-only filter.  The only failure mode modelled is the explicit
`ValueError`; `.ok none` is the no-match `(None, None, None)` return. -/
noncomputable def closest_point_along_lines (G : Geo) (search_point : Pt)
    (lines : List (List Pt)) (search_distance : Option ℝ)
    (sindex : Option ((ℝ × ℝ × ℝ × ℝ) → List ℕ)) :
    Except String (Option (Pt × ℕ × ℝ)) :=
  let line_tuples := enumL lines
  let answer := fun (lt : List (ℕ × List Pt)) =>
    match bestTuple G search_point lt with
    | none => Option.none
    | some (t, d) =>
      some (G.interp t.2 (G.proj t.2 search_point), t.1, d)
  match sindex with
  | some sidx =>
    match search_distance with
    | none => .error "Must specify search_distance if using spatial index"
    | some r =>
      if r = 0 then .error "Must specify search_distance if using spatial index"
      else
        let bounds := (search_point.1 - r, search_point.2 - r,
          search_point.1 + r, search_point.2 + r)
        .ok (answer ((sidx bounds).map (fun i => line_tuples.getD i (0, []))))
  | none =>
    match search_distance with
    | some r =>
      if r = 0 then .ok (answer line_tuples)
      else .ok (answer (line_tuples.filter
        (fun t => G.intersectsAreaB t.2 search_point r)))
    | none => .ok (answer line_tuples)

/-- A Shapely geometry as passed to `vertices_to_points`: a LineString
with its coordinate list, or a Polygon carrying its exterior ring (which
stores the synthetic closing vertex). -/
inductive Geom
  | line (coords : List Pt)
  | poly (ring : List Pt)

/-- Embedding of the first `vertices_to_points` (geometry.py lines 30-50):
drops the redundant closing vertex for a Polygon and returns LineString
coordinates unchanged.  At import time this binding is shadowed by the
later definition of the same name. -/
def vertices_to_points_first : Geom → List Pt
  | .poly ring => ring.dropLast
  | .line cs => cs

/-- Embedding of the effective `vertices_to_points` (geometry.py lines
1255-1260, the later and therefore live binding of the name):
`np.array(shape)` yields the raw coordinate array of a LineString, closing
vertex included; a Polygon does not expose the array interface, so the
conversion fails. -/
def vertices_to_points : Geom → Except String (List Pt)
  | .line cs => .ok cs
  | .poly _ => .error "np.array cannot convert a Polygon to a coordinate array"

theorem zipProj (f : Pt → ℝ) : ∀ l : List Pt,
    (l.map f).zip l = l.map (fun c => (f c, c))
  | [] => rfl
  | a :: l => by simp [zipProj f l]

theorem zipConst (f : Pt → ℝ) (k : ℕ) : ∀ l : List Pt,
    (l.map f).zip (l.map (fun _ => k)) = l.map (fun c => (f c, k))
  | [] => rfl
  | a :: l => by
    rw [List.map_cons, List.map_cons, List.zip_cons_cons, zipConst f k l,
      List.map_cons]

/-- A stable sort of an already-determined order: insertion sort is the
unique sorted permutation for an antisymmetric total order, hence equals
any sorted rearrangement of its input. -/
theorem isort_eq {α : Type} (r : α → α → Prop) [DecidableRel r] [IsAntisymm α r]
    [IsTotal α r] [IsTrans α r] {l m : List α} (hp : l.Perm m)
    (hs : List.Pairwise r m) : l.insertionSort r = m :=
  List.eq_of_perm_of_sorted ((List.perm_insertionSort r l).trans hp)
    (List.sorted_insertionSort r l) hs

theorem perm_insert_two {α : Type} (A B C : List α) (p q : α) :
    (A ++ p :: (B ++ q :: C)).Perm ((A ++ B ++ C) ++ [p, q]) := by
  have h1 : (A ++ p :: (B ++ q :: C)).Perm (p :: (A ++ (B ++ q :: C))) :=
    List.perm_middle
  have h3 : ((A ++ B) ++ q :: C).Perm (q :: (A ++ B ++ C)) := by
    have h := @List.perm_middle α q (A ++ B) C
    simpa using h
  have h4 : ((A ++ B ++ C) ++ [p, q]).Perm (p :: ((A ++ B ++ C) ++ [q])) := by
    have h := @List.perm_middle α p (A ++ B ++ C) [q]
    simpa using h
  have h5 : ((A ++ B ++ C) ++ [q]).Perm (q :: (A ++ B ++ C)) := by
    have h := @List.perm_middle α q (A ++ B ++ C) []
    simpa using h
  refine (h1.trans ?_).trans (h4.trans (h5.cons p)).symm
  rw [← List.append_assoc]
  exact h3.cons p

theorem pairwise_lt_assemble (A B C : List ℝ) (dp dq : ℝ)
    (h : (A ++ B ++ C).Pairwise (· < ·))
    (h1 : ∀ x ∈ A, x < dp) (h2 : ∀ x ∈ B, dp < x ∧ x < dq)
    (h3 : ∀ x ∈ C, dq < x) (hpq : dp < dq) :
    (A ++ dp :: (B ++ dq :: C)).Pairwise (· < ·) := by
  have hAB_C := List.pairwise_append.mp h
  have hA_B := List.pairwise_append.mp hAB_C.1
  have hA := hA_B.1
  have hB := hA_B.2.1
  have hC := hAB_C.2.1
  rw [List.pairwise_append]
  refine ⟨hA, ?_, ?_⟩
  · rw [List.pairwise_cons]
    constructor
    · intro b hb
      rcases List.mem_append.mp hb with hb | hb
      · exact (h2 b hb).1
      · rcases List.mem_cons.mp hb with rfl | hb
        · exact hpq
        · exact lt_trans hpq (h3 b hb)
    · rw [List.pairwise_append]
      refine ⟨hB, ?_, ?_⟩
      · rw [List.pairwise_cons]
        exact ⟨h3, hC⟩
      · intro x hx b hb
        rcases List.mem_cons.mp hb with rfl | hb
        · exact (h2 x hx).2
        · exact lt_trans (h2 x hx).2 (h3 b hb)
  · intro a ha b hb
    rcases List.mem_cons.mp hb with rfl | hb
    · exact h1 a ha
    · rcases List.mem_append.mp hb with hb | hb
      · exact lt_trans (h1 a ha) (h2 b hb).1
      · rcases List.mem_cons.mp hb with rfl | hb
        · exact lt_trans (h1 a ha) hpq
        · exact lt_trans (h1 a ha) (lt_trans hpq (h3 b hb))

/-- C6: splitting with an empty cut set returns exactly one Segment equal
to the whole curve.  The hypothesis captures the curve model's contract
for a simple curve: the projection of each vertex (final vertex excluded,
as the source strips it before sorting) is strictly increasing along the
curve, so the sort leaves the coordinates in place. -/
theorem split_empty_is_identity (G : Geo) (lc : List Pt)
    (h2 : 2 ≤ lc.length)
    (hinc : lc.dropLast.Pairwise (fun a b => G.proj lc a < G.proj lc b)) :
    split_line_at_points G lc [] = [lc] := by
  obtain ⟨ys, y, rfl⟩ : ∃ ys y, lc = ys ++ [y] := by
    rcases List.eq_nil_or_concat lc with h | ⟨L, b, h⟩
    · rw [h] at h2; simp at h2
    · exact ⟨L, b, by rw [h, List.concat_eq_append]⟩
  obtain ⟨hd, t, rfl⟩ : ∃ hd t, ys = hd :: t := by
    cases ys with
    | nil => simp at h2
    | cons hd t => exact ⟨hd, t, rfl⟩
  have hdrop : ((hd :: t) ++ [y]).dropLast = hd :: t := List.dropLast_concat
  have hlast : ((hd :: t) ++ [y]).getLastD (0, 0) = y := List.getLastD_concat _ _ _
  rw [hdrop] at hinc
  have hco : sortedCoordsOf G ((hd :: t) ++ [y]) [] = hd :: t := by
    unfold sortedCoordsOf
    simp only [hdrop, List.append_nil]
    rw [zipProj]
    rw [isort_eq pairLe (List.Perm.refl _) ?hs]
    · simp [Function.comp_def]
    case hs =>
      have hfst : ((hd :: t).map
          (fun c => (G.proj ((hd :: t) ++ [y]) c, c))).Pairwise
          (fun a b => a.1 < b.1) := by
        rw [List.pairwise_map]
        exact hinc
      exact hfst.imp (fun h => Or.inl h)
  have hcu : sortedCutsOf G ((hd :: t) ++ [y]) [] =
      (1 :: List.replicate t.length 0) := by
    unfold sortedCutsOf
    simp only [hdrop, List.append_nil, List.map_nil, cutsInit]
    rw [List.map_cons, List.zip_cons_cons, zipConst]
    rw [isort_eq cutLe (List.Perm.refl _) ?hs2]
    · simp [Function.comp_def, List.map_const']
    case hs2 =>
      have hfst : ((G.proj ((hd :: t) ++ [y]) hd, (1 : ℕ)) ::
          t.map (fun c => (G.proj ((hd :: t) ++ [y]) c, (0 : ℕ)))).Pairwise
          (fun a b => a.1 < b.1) := by
        rw [List.pairwise_cons]
        constructor
        · intro b hb
          obtain ⟨c, hc, rfl⟩ := List.mem_map.mp hb
          exact (List.pairwise_cons.mp hinc).1 c hc
        · rw [List.pairwise_map]
          exact (List.pairwise_cons.mp hinc).2
      exact hfst.imp (fun h => Or.inl h)
  rw [split_line_at_points, hco, hcu, hlast]
  have hpb := pieces_blocks [(hd, t)] y (by simp)
  have hbf : blocksFlat [(hd, t)] = hd :: t := by simp [blocksFlat]
  have hbc : blocksCuts [(hd, t)] = 1 :: List.replicate t.length 0 := by
    simp [blocksCuts]
  rw [hbf, hbc] at hpb
  rw [hpb]
  simp [chainPieces]

/-- The three-piece characterization of a split at two points whose
projections are distinct, strictly between the boundary cuts, and distinct
from every vertex projection: the sorted merge places them between the
vertex runs `W`, `X`, `Y`, and the extraction loop yields exactly the
three runs. -/
theorem split_two (G : Geo) (W X Y : List Pt) (f p q : Pt) (lc pts : List Pt)
    (hlc : lc = (W ++ X ++ Y) ++ [f]) (hW : W ≠ [])
    (hpts : pts = [p, q] ∨ pts = [q, p])
    (hpq : G.proj lc p < G.proj lc q)
    (hWp : ∀ w ∈ W, G.proj lc w < G.proj lc p)
    (hXpq : ∀ x ∈ X, G.proj lc p < G.proj lc x ∧ G.proj lc x < G.proj lc q)
    (hYq : ∀ y ∈ Y, G.proj lc q < G.proj lc y)
    (hsort : (W ++ X ++ Y).Pairwise (fun a b => G.proj lc a < G.proj lc b)) :
    split_line_at_points G lc pts =
      [W ++ [p], p :: (X ++ [q]), q :: (Y ++ [f])] := by
  obtain ⟨whd, wtl, rfl⟩ : ∃ whd wtl, W = whd :: wtl := by
    cases W with
    | nil => exact absurd rfl hW
    | cons a b => exact ⟨a, b, rfl⟩
  have hdrop : lc.dropLast = (whd :: wtl) ++ X ++ Y := by
    rw [hlc, List.dropLast_concat]
  have hlast : lc.getLastD (0, 0) = f := by
    rw [hlc]; exact List.getLastD_concat _ _ _
  -- the strictly increasing projection-key list shared by both sorts
  have hES : ((whd :: wtl).map (G.proj lc) ++ G.proj lc p ::
      (X.map (G.proj lc) ++ G.proj lc q :: Y.map (G.proj lc))).Pairwise (· < ·) := by
    apply pairwise_lt_assemble
    · have h1 : ((((whd :: wtl) ++ X) ++ Y).map (G.proj lc)).Pairwise (· < ·) :=
        List.pairwise_map.mpr hsort
      simpa [List.map_append] using h1
    · intro x hx
      obtain ⟨w, hw, rfl⟩ := List.mem_map.mp hx
      exact hWp w hw
    · intro x hx
      obtain ⟨w, hw, rfl⟩ := List.mem_map.mp hx
      exact hXpq w hw
    · intro x hx
      obtain ⟨w, hw, rfl⟩ := List.mem_map.mp hx
      exact hYq w hw
    · exact hpq
  have hco : sortedCoordsOf G lc pts = (whd :: wtl) ++ p :: (X ++ q :: Y) := by
    unfold sortedCoordsOf
    rw [hdrop, zipProj]
    have hM : (((((whd :: wtl) ++ X ++ Y) ++ pts).map
        (fun c => (G.proj lc c, c))).insertionSort pairLe)
        = ((whd :: wtl).map (fun c => (G.proj lc c, c))) ++ (G.proj lc p, p) ::
          ((X.map (fun c => (G.proj lc c, c))) ++ (G.proj lc q, q) ::
            (Y.map (fun c => (G.proj lc c, c)))) := by
      apply isort_eq pairLe
      · rw [List.map_append]
        have hptsPerm : (pts.map (fun c => (G.proj lc c, c))).Perm
            [(G.proj lc p, p), (G.proj lc q, q)] := by
          rcases hpts with rfl | rfl
          · simp
          · simpa using List.Perm.swap (G.proj lc p, p) (G.proj lc q, q) []
        refine (List.Perm.append_left _ hptsPerm).trans ?_
        have e1 : (((whd :: wtl) ++ X ++ Y).map (fun c => (G.proj lc c, c)))
            = ((whd :: wtl).map (fun c => (G.proj lc c, c)) ++
              X.map (fun c => (G.proj lc c, c)) ++
              Y.map (fun c => (G.proj lc c, c))) := by
          simp [List.map_append]
        rw [e1]
        exact (perm_insert_two _ _ _ _ _).symm
      · have hMfst : (((whd :: wtl).map (fun c => (G.proj lc c, c))) ++
            (G.proj lc p, p) :: ((X.map (fun c => (G.proj lc c, c))) ++
              (G.proj lc q, q) :: (Y.map (fun c => (G.proj lc c, c))))).map Prod.fst
            = ((whd :: wtl).map (G.proj lc) ++ G.proj lc p ::
              (X.map (G.proj lc) ++ G.proj lc q :: Y.map (G.proj lc))) := by
          simp [List.map_append, List.map_map, Function.comp_def]
        have hsorted : ((((whd :: wtl).map (fun c => (G.proj lc c, c))) ++
            (G.proj lc p, p) :: ((X.map (fun c => (G.proj lc c, c))) ++
              (G.proj lc q, q) :: (Y.map (fun c => (G.proj lc c, c))))).map
                Prod.fst).Pairwise (· < ·) := by
          rw [hMfst]; exact hES
        exact (List.pairwise_map.mp hsorted).imp (fun h => Or.inl h)
    rw [hM]
    simp [List.map_append, List.map_map, Function.comp_def]
  have hcu : sortedCutsOf G lc pts = blocksCuts [(whd, wtl), (p, X), (q, Y)] := by
    unfold sortedCutsOf
    rw [hdrop]
    have hci : cutsInit ((whd :: wtl) ++ X ++ Y) =
        1 :: ((wtl ++ X ++ Y).map (fun _ => (0 : ℕ))) := rfl
    rw [hci]
    have hptsLen : pts.map (fun _ => (1 : ℕ)) = [1, 1] := by
      rcases hpts with rfl | rfl <;> rfl
    rw [hptsLen]
    have hsplitmap : (((whd :: wtl) ++ X ++ Y) ++ pts).map (G.proj lc) =
        G.proj lc whd :: (((wtl ++ X ++ Y) ++ pts).map (G.proj lc)) := by
      simp
    rw [hsplitmap]
    have hzip : ((((wtl ++ X ++ Y) ++ pts).map (G.proj lc)).zip
        ((wtl ++ X ++ Y).map (fun _ => (0 : ℕ)) ++ [1, 1]))
        = ((wtl ++ X ++ Y).map (fun c => (G.proj lc c, (0 : ℕ))) ++
          pts.map (fun c => (G.proj lc c, (1 : ℕ)))) := by
      rw [List.map_append, List.zip_append (by simp), zipConst]
      congr 1
      have h12 : ([1, 1] : List ℕ) = pts.map (fun _ => (1 : ℕ)) := by
        rcases hpts with rfl | rfl <;> rfl
      rw [h12, zipConst]
    rw [List.cons_append, List.zip_cons_cons, hzip]
    have hN : (((G.proj lc whd, (1 : ℕ)) ::
        ((wtl ++ X ++ Y).map (fun c => (G.proj lc c, (0 : ℕ))) ++
          pts.map (fun c => (G.proj lc c, (1 : ℕ))))).insertionSort cutLe)
        = ((G.proj lc whd, 1) :: wtl.map (fun c => (G.proj lc c, (0 : ℕ)))) ++
          (G.proj lc p, 1) :: ((X.map (fun c => (G.proj lc c, (0 : ℕ)))) ++
            (G.proj lc q, 1) :: (Y.map (fun c => (G.proj lc c, (0 : ℕ))))) := by
      apply isort_eq cutLe
      · have hptsPerm : (pts.map (fun c => (G.proj lc c, (1 : ℕ)))).Perm
            [(G.proj lc p, 1), (G.proj lc q, 1)] := by
          rcases hpts with rfl | rfl
          · simp
          · simpa using List.Perm.swap (G.proj lc p, (1 : ℕ)) (G.proj lc q, 1) []
        have e1 : ((wtl ++ X ++ Y).map (fun c => (G.proj lc c, (0 : ℕ))))
            = (wtl.map (fun c => (G.proj lc c, (0 : ℕ))) ++
              X.map (fun c => (G.proj lc c, (0 : ℕ))) ++
              Y.map (fun c => (G.proj lc c, (0 : ℕ)))) := by
          simp [List.map_append]
        have htail : ((wtl ++ X ++ Y).map (fun c => (G.proj lc c, (0 : ℕ))) ++
            pts.map (fun c => (G.proj lc c, (1 : ℕ)))).Perm
            (wtl.map (fun c => (G.proj lc c, (0 : ℕ))) ++
              (G.proj lc p, 1) :: ((X.map (fun c => (G.proj lc c, (0 : ℕ)))) ++
                (G.proj lc q, 1) :: (Y.map (fun c => (G.proj lc c, (0 : ℕ)))))) := by
          refine (List.Perm.append_left _ hptsPerm).trans ?_
          rw [e1]
          exact (perm_insert_two _ _ _ _ _).symm
        have := htail.cons (G.proj lc whd, (1 : ℕ))
        simpa using this
      · have hNfst : ((((G.proj lc whd, (1 : ℕ)) ::
            wtl.map (fun c => (G.proj lc c, (0 : ℕ)))) ++
            (G.proj lc p, 1) :: ((X.map (fun c => (G.proj lc c, (0 : ℕ)))) ++
              (G.proj lc q, 1) :: (Y.map (fun c => (G.proj lc c, (0 : ℕ)))))).map
                Prod.fst)
            = ((whd :: wtl).map (G.proj lc) ++ G.proj lc p ::
              (X.map (G.proj lc) ++ G.proj lc q :: Y.map (G.proj lc))) := by
          simp [List.map_append, List.map_map, Function.comp_def]
        have hsorted2 : ((((G.proj lc whd, (1 : ℕ)) ::
            wtl.map (fun c => (G.proj lc c, (0 : ℕ)))) ++
            (G.proj lc p, 1) :: ((X.map (fun c => (G.proj lc c, (0 : ℕ)))) ++
              (G.proj lc q, 1) :: (Y.map (fun c => (G.proj lc c, (0 : ℕ)))))).map
                Prod.fst).Pairwise (· < ·) := by
          rw [hNfst]; exact hES
        exact (List.pairwise_map.mp hsorted2).imp (fun h => Or.inl h)
    have hNmatch : ((G.proj lc whd, (1 : ℕ)) ::
        ((wtl ++ X ++ Y).map (fun c => (G.proj lc c, (0 : ℕ))) ++
          pts.map (fun c => (G.proj lc c, (1 : ℕ)))))
        = (((G.proj lc whd, (1 : ℕ)) ::
          ((wtl ++ X ++ Y).map (fun c => (G.proj lc c, (0 : ℕ))))) ++
          pts.map (fun c => (G.proj lc c, (1 : ℕ)))) := by
      simp
    rw [hN]
    simp [blocksCuts, List.map_append, List.map_map, Function.comp_def,
      List.map_const']
  rw [split_line_at_points, hco, hcu, hlast]
  have hbf : (whd :: wtl) ++ p :: (X ++ q :: Y) =
      blocksFlat [(whd, wtl), (p, X), (q, Y)] := by
    simp [blocksFlat]
  rw [hbf, pieces_blocks _ _ (by simp)]
  simp [chainPieces]

/-- Packaging of the projection-contract hypotheses under which
`split_line_at_points` cuts a curve into exactly three pieces at two
supplied points `a`, `b` with `a` projecting first: the curve decomposes
as `W ++ X ++ Y ++ [f]` with every `W` vertex projecting before `a`,
every `X` vertex between `a` and `b`, every `Y` vertex after `b`, and all
vertex projections strictly increasing.  For a simple curve and two
distinct on-curve points not coinciding with vertices, this is exactly
what the external `project` primitive provides. -/
def SplitHyp (G : Geo) (lc : List Pt) (W X Y : List Pt) (f a b : Pt) : Prop :=
  lc = (W ++ X ++ Y) ++ [f] ∧ W ≠ [] ∧
  G.proj lc a < G.proj lc b ∧
  (∀ w ∈ W, G.proj lc w < G.proj lc a) ∧
  (∀ x ∈ X, G.proj lc a < G.proj lc x ∧ G.proj lc x < G.proj lc b) ∧
  (∀ y ∈ Y, G.proj lc b < G.proj lc y) ∧
  (W ++ X ++ Y).Pairwise (fun c d => G.proj lc c < G.proj lc d)

/-- C1: `segment(curve, u, v)` starts at `u` and ends at `v` (up to
epsilon — here exactly) regardless of the direction in which the parent
curve's coordinates run: whichever of the two supplied points projects
first, the middle split piece is returned as-is when it starts at `u` and
reversed when it starts at `v`. -/
theorem segment_directional (G : Geo) (lc : List Pt) (u v : Pt)
    (W X Y : List Pt) (f : Pt)
    (h : SplitHyp G lc W X Y f u v ∨ SplitHyp G lc W X Y f v u) :
    (segment G lc u v).head? = some u ∧
    (segment G lc u v).getLast? = some v := by
  rcases h with ⟨hlc, hW, hpq, hWp, hX, hY, hs⟩ | ⟨hlc, hW, hpq, hWp, hX, hY, hs⟩
  · have hsplit := split_two G W X Y f u v lc [u, v] hlc hW (Or.inl rfl)
      hpq hWp hX hY hs
    have hgetD : (split_line_at_points G lc [u, v]).getD 1 [] = u :: (X ++ [v]) := by
      rw [hsplit]; rfl
    have hcond : (endpointsF (u :: (X ++ [v]))).1 = u := rfl
    simp only [segment, hgetD, hcond, if_pos]
    constructor
    · rfl
    · have : (u :: (X ++ [v])) = (u :: X) ++ [v] := by simp
      rw [this, List.getLast?_concat]
  · have hsplit := split_two G W X Y f v u lc [u, v] hlc hW (Or.inr rfl)
      hpq hWp hX hY hs
    have hgetD : (split_line_at_points G lc [u, v]).getD 1 [] = v :: (X ++ [u]) := by
      rw [hsplit]; rfl
    have hvu : v ≠ u := by
      intro he
      rw [he] at hpq
      exact absurd hpq (lt_irrefl _)
    have hcond : (endpointsF (v :: (X ++ [u]))).1 = v := rfl
    have hcond2 : ¬ ((endpointsF (v :: (X ++ [u]))).1 = u) := by
      rw [hcond]; exact hvu
    simp only [segment, hgetD, hcond2, if_neg, ite_false]
    constructor
    · rw [List.head?_reverse]
      have : (v :: (X ++ [u])) = (v :: X) ++ [u] := by simp
      rw [this, List.getLast?_concat]
    · rw [List.getLast?_reverse]
      rfl

/-- C2 (amended): length conservation for `split_line_at_points` when the
sorted merge of vertices and cut points is an on-curve refinement of the
original polyline.  The hypotheses supply the sorted block decomposition
(`bs`, the cut flags landing on the block heads) and the fact that the
merged chain refines the original curve (`Inserted`): every supplied point
lies on the curve between its sorted neighbours.  An off-curve cut point
violates `Inserted`, and indeed breaks the claim. -/
theorem split_length_conservation (G : Geo) (lc pts : List Pt)
    (bs : List (Pt × List Pt)) (hbs : bs ≠ [])
    (hM : sortedCoordsOf G lc pts = blocksFlat bs)
    (hN : sortedCutsOf G lc pts = blocksCuts bs)
    (hins : Inserted lc (blocksFlat bs ++ [lc.getLastD (0, 0)])) :
    sumLengths (split_line_at_points G lc pts) = polyLength lc := by
  rw [split_line_at_points, hM, hN, pieces_blocks bs _ hbs,
    sumLengths_chainPieces bs _ hbs, inserted_length hins]

/-- C3 (amended): every piece produced by `split_line_at_points` has
strictly positive length provided consecutive cut coordinates of the
sorted merge (block heads plus the appended final coordinate) are
pairwise distinct — in particular, no supplied point may coincide with an
existing cut. -/
theorem split_pieces_positive (G : Geo) (lc pts : List Pt)
    (bs : List (Pt × List Pt)) (hbs : bs ≠ [])
    (hM : sortedCoordsOf G lc pts = blocksFlat bs)
    (hN : sortedCutsOf G lc pts = blocksCuts bs)
    (hne : List.Chain' (fun a b => a ≠ b)
      (bs.map Prod.fst ++ [lc.getLastD (0, 0)])) :
    ∀ s ∈ split_line_at_points G lc pts, 0 < polyLength s := by
  rw [split_line_at_points, hM, hN, pieces_blocks bs _ hbs]
  exact chainPieces_pos bs _ hne

theorem foldr_least (d : ℝ) : ∀ (l : List ℝ) (s j : ℕ),
    j < l.length → d ≤ l.getD j 0 → (∀ k, k < j → l.getD k 0 < d) →
    (((List.range l.length).map (fun i => s + i)).zip l).foldr
      (fun p acc => if d ≤ p.2 then some p.1 else acc) none = some (s + j)
  | [], s, j, hj, _, _ => absurd hj (by simp)
  | x :: xs, s, j, hj, hd, hk => by
    have hrange : (List.range (x :: xs).length).map (fun i => s + i) =
        (s :: (List.range xs.length).map (fun i => (s + 1) + i)) := by
      rw [List.length_cons, List.range_succ_eq_map, List.map_cons, List.map_map]
      congr 1
      apply List.map_congr_left
      intro i _
      simp only [Function.comp_apply, Nat.succ_eq_add_one]
      omega
    rw [hrange, List.zip_cons_cons, List.foldr_cons]
    cases j with
    | zero =>
      rw [List.getD_cons_zero] at hd
      simp [if_pos hd]
    | succ j2 =>
      have hx : x < d := by
        have := hk 0 (Nat.succ_pos j2)
        rwa [List.getD_cons_zero] at this
      rw [if_neg (not_le.mpr hx)]
      have ih := foldr_least d xs (s + 1) j2
        (by rw [List.length_cons] at hj; omega)
        (by rwa [List.getD_cons_succ] at hd)
        (fun k hkk => by
          have := hk (k + 1) (Nat.succ_lt_succ hkk)
          rwa [List.getD_cons_succ] at this)
      rw [ih]
      congr 1
      omega

/-- The reversed scan of `azimuth_at_distance` selects the smallest index
whose cumulative length reaches `distance` (the last overwrite wins). -/
theorem segmentIdAt_eq (cums : List ℝ) (d : ℝ) (j : ℕ)
    (hj : j < cums.length) (hd : d ≤ cums.getD j 0)
    (hk : ∀ k, k < j → cums.getD k 0 < d) :
    segmentIdAt cums d = some j := by
  rw [segmentIdAt, enumL, List.foldl_reverse]
  have h0 : List.range cums.length = (List.range cums.length).map (fun i => 0 + i) := by
    simp
  rw [h0]
  have := foldr_least d cums 0 j hj hd hk
  simpa using this

theorem segmentIdAt_none (cums : List ℝ) (d : ℝ)
    (hall : ∀ x ∈ cums, x < d) : segmentIdAt cums d = none := by
  rw [segmentIdAt]
  have hgen : ∀ (L : List (ℕ × ℝ)), (∀ p ∈ L, p.2 < d) →
      L.foldl (fun acc p => if d ≤ p.2 then some p.1 else acc)
        (none : Option ℕ) = none := by
    intro L
    induction L with
    | nil => intro _; rfl
    | cons p L ih =>
      intro hall2
      rw [List.foldl_cons, if_neg (not_le.mpr (hall2 p (List.mem_cons_self p L)))]
      exact ih (fun x hx => hall2 x (List.mem_cons_of_mem p hx))
  apply hgen
  intro p hp
  have hp2 := List.mem_reverse.mp hp
  rw [enumL] at hp2
  obtain ⟨i, x⟩ := p
  exact hall x (List.of_mem_zip hp2).2

theorem slav_cons (a b : Pt) (r : List Pt) :
    split_line_at_vertices (a :: b :: r) =
      [a, b] :: split_line_at_vertices (b :: r) := by
  unfold split_line_at_vertices
  have h1 : (a :: b :: r).length - 1 = ((b :: r).length - 1) + 1 := by simp
  rw [h1, List.range_succ_eq_map, List.map_cons, List.map_map]
  congr 1

theorem slav_sum : ∀ l : List Pt,
    ((split_line_at_vertices l).map polyLength).sum = polyLength l
  | [] => by simp [split_line_at_vertices, polyLength]
  | [_] => by simp [split_line_at_vertices, polyLength]
  | a :: b :: r => by
    rw [slav_cons, List.map_cons, List.sum_cons, slav_sum (b :: r)]
    simp only [polyLength]
    ring

theorem scanl_le_sum (d : ℝ) : ∀ (ls : List ℝ) (acc : ℝ),
    (∀ x ∈ ls, 0 ≤ x) → ∀ y ∈ List.scanl (· + ·) acc ls, y ≤ acc + ls.sum
  | [], acc, _, y, hy => by
    simp only [List.scanl_nil, List.mem_singleton] at hy
    simp [hy]
  | x :: ls, acc, hnn, y, hy => by
    rw [List.scanl_cons] at hy
    rcases List.mem_cons.mp hy with rfl | hy
    · have h1 : 0 ≤ x := hnn x (List.mem_cons_self _ _)
      have h2 : 0 ≤ ls.sum := List.sum_nonneg (fun z hz => hnn z (List.mem_cons_of_mem _ hz))
      rw [List.sum_cons]
      linarith
    · have ih := scanl_le_sum d ls (acc + x)
        (fun z hz => hnn z (List.mem_cons_of_mem _ hz)) y hy
      rw [List.sum_cons]
      linarith

theorem cumulative_le_sum (ls : List ℝ) (hnn : ∀ x ∈ ls, 0 ≤ x) :
    ∀ y ∈ cumulative ls, y ≤ ls.sum := by
  intro y hy
  rw [cumulative] at hy
  have := scanl_le_sum 0 ls 0 hnn y (List.mem_of_mem_tail hy)
  simpa using this

theorem sqrt_eval {a b : ℝ} (hb : 0 ≤ b) (h : b * b = a) : Real.sqrt a = b := by
  rw [← h, Real.sqrt_mul_self hb]

theorem endpointsF_pair (u v : Pt) : endpointsF [u, v] = (u, v) := rfl

/-- Concrete instantiation of the external geometry primitives, exact for
the configurations of the concrete examples below, which use horizontal
left-to-right lines and the axis-aligned square with corners (5,-5) and
(15,5): projection clamps the x-offset from the line's start into its
x-range, interpolation walks along the line's constant-y direction,
containment in the square demands strict interiority of every vertex, and
the only intersection queried — the segment from (0,0) to (20,0) against
the square's boundary — meets it at (5,0) and (15,0). -/
noncomputable def G0 : Geo where
  proj := fun l p =>
    match l.head?, l.getLast? with
    | some u, some v => min (v.1 - u.1) (max 0 (p.1 - u.1))
    | _, _ => 0
  interp := fun l d =>
    match l.head?, l.getLast? with
    | some u, some v => (u.1 + min (v.1 - u.1) (max 0 d), u.2)
    | _, _ => (0, 0)
  intersectsB := fun _ _ => true
  intersectionPts := fun _ _ => [(5, 0), (15, 0)]
  withinB := fun l _ => l.all
    (fun p => decide (5 < p.1 ∧ p.1 < 15 ∧ -5 < p.2 ∧ p.2 < 5))
  distPL := fun _ _ => 0
  intersectsAreaB := fun _ _ _ => true
  linemerge := fun ls => .multi ls

/-- C4 (amended): `azimuth_at_distance` selects the first per-vertex
segment whose cumulative length reaches `distance` — the reversed scan
overwrites `segment_ID` downwards, so the last overwrite is the smallest
qualifying index — and a distance exactly at a vertex boundary therefore
resolves to the segment that ends at that vertex. -/
theorem azimuth_at_distance_first_reach (l : List Pt) (d : ℝ) (deg : Bool) (j : ℕ)
    (hj : j < (cumulative ((split_line_at_vertices l).map polyLength)).length)
    (hd : d ≤ (cumulative ((split_line_at_vertices l).map polyLength)).getD j 0)
    (hk : ∀ k, k < j →
      (cumulative ((split_line_at_vertices l).map polyLength)).getD k 0 < d) :
    azimuth_at_distance l d deg =
      some (azimuthF deg ((split_line_at_vertices l).getD j [])) := by
  have h := segmentIdAt_eq _ d j hj hd hk
  unfold azimuth_at_distance
  rw [h]

/-- C10: for a distance strictly beyond the curve's total length no
cumulative segment length passes the selection test, `segment_ID` is never
assigned, and the operation fails (the unbound-variable error, modelled as
`none`) rather than clamping. -/
theorem azimuth_at_distance_overrun (l : List Pt) (d : ℝ) (deg : Bool)
    (h : polyLength l < d) : azimuth_at_distance l d deg = none := by
  have hn : segmentIdAt
      (cumulative ((split_line_at_vertices l).map polyLength)) d = none := by
    apply segmentIdAt_none
    intro x hx
    have h1 : x ≤ ((split_line_at_vertices l).map polyLength).sum :=
      cumulative_le_sum _ (by
        intro z hz
        obtain ⟨seg, _, rfl⟩ := List.mem_map.mp hz
        exact polyLength_nonneg seg) x hx
    rw [slav_sum] at h1
    linarith
  unfold azimuth_at_distance
  rw [hn]

theorem cums_of_unit_ell :
    cumulative ((split_line_at_vertices
      [((0 : ℝ), (0 : ℝ)), (1, 0), (1, 1)]).map polyLength) = [1, 2] := by
  have hsegs : split_line_at_vertices [((0 : ℝ), (0 : ℝ)), (1, 0), (1, 1)] =
      [[(0, 0), (1, 0)], [(1, 0), (1, 1)]] := rfl
  rw [hsegs]
  have hl1 : polyLength [((0 : ℝ), (0 : ℝ)), (1, 0)] = 1 := by
    norm_num [polyLength, dist2, Real.sqrt_one]
  have hl2 : polyLength [((1 : ℝ), (0 : ℝ)), (1, 1)] = 1 := by
    norm_num [polyLength, dist2, Real.sqrt_one]
  rw [List.map_cons, List.map_cons, List.map_nil, hl1, hl2]
  norm_num [cumulative]

/-- C4 counterexample: on the curve (0,0)-(1,0)-(1,1), the distance 1
falls exactly on the vertex (1,0).  The code resolves it to the first
segment — the one that ends at that vertex, azimuth 180 — while the
segment starting at the vertex has azimuth -90. -/
theorem azimuth_at_distance_boundary_cex :
    azimuth_at_distance [((0 : ℝ), (0 : ℝ)), (1, 0), (1, 1)] 1 true = some 180 ∧
    azimuthF true [((1 : ℝ), (0 : ℝ)), (1, 1)] = -90 ∧ ((180 : ℝ) ≠ -90) := by
  refine ⟨?_, ?_, by norm_num⟩
  · have hid : segmentIdAt (cumulative ((split_line_at_vertices
        [((0 : ℝ), (0 : ℝ)), (1, 0), (1, 1)]).map polyLength)) 1 = some 0 := by
      rw [cums_of_unit_ell]
      apply segmentIdAt_eq _ _ 0 (by norm_num)
      · norm_num
      · intro k hk; omega
    unfold azimuth_at_distance
    rw [hid]
    have haz : azimuthF true [((0 : ℝ), (0 : ℝ)), (1, 0)] = 180 := by
      simp only [azimuthF, endpointsF_pair]
      norm_num [atan2]
      rw [mul_comm, mul_div_assoc, div_self Real.pi_ne_zero, mul_one]
    show some (azimuthF true ((split_line_at_vertices
        [((0 : ℝ), (0 : ℝ)), (1, 0), (1, 1)]).getD 0 [])) = some 180
    have hget : (split_line_at_vertices
        [((0 : ℝ), (0 : ℝ)), (1, 0), (1, 1)]).getD 0 [] = [(0, 0), (1, 0)] := rfl
    rw [hget, haz]
  · simp only [azimuthF, endpointsF_pair]
    norm_num [atan2]
    field_simp
    ring

theorem azimuth_at_distance_first_reach_witness :
    azimuth_at_distance [((0 : ℝ), (0 : ℝ)), (1, 0), (1, 1)] 1 true =
      some (azimuthF true ((split_line_at_vertices
        [((0 : ℝ), (0 : ℝ)), (1, 0), (1, 1)]).getD 0 [])) :=
  azimuth_at_distance_first_reach _ 1 true 0
    (by rw [cums_of_unit_ell]; norm_num)
    (by rw [cums_of_unit_ell]; norm_num)
    (by intro k hk; omega)

theorem azimuth_at_distance_overrun_witness :
    azimuth_at_distance [((0 : ℝ), (0 : ℝ)), (1, 0)] 2 true = none :=
  azimuth_at_distance_overrun _ 2 true
    (by norm_num [polyLength, dist2, Real.sqrt_one])

theorem sco_ten_four : sortedCoordsOf G0 [((0 : ℝ), (0 : ℝ)), (10, 0)] [(4, 0)] =
    [(0, 0), (4, 0)] := by
  norm_num [sortedCoordsOf, G0, List.insertionSort, List.orderedInsert, pairLe, ptLe]

theorem scu_ten_four : sortedCutsOf G0 [((0 : ℝ), (0 : ℝ)), (10, 0)] [(4, 0)] =
    [1, 1] := by
  norm_num [sortedCutsOf, G0, cutsInit, List.insertionSort, List.orderedInsert, cutLe]

theorem split_length_conservation_witness :
    sumLengths (split_line_at_points G0 [((0 : ℝ), (0 : ℝ)), (10, 0)] [(4, 0)]) =
      polyLength [((0 : ℝ), (0 : ℝ)), (10, 0)] :=
  split_length_conservation G0 _ _ [((0, 0), []), ((4, 0), [])] (by simp)
    (by rw [sco_ten_four]; rfl)
    (by rw [scu_ten_four]; rfl)
    (by
      show Inserted [((0 : ℝ), (0 : ℝ)), (10, 0)] [(0, 0), (4, 0), (10, 0)]
      have hseg : SegChain ((0 : ℝ), (0 : ℝ)) ((10 : ℝ), (0 : ℝ)) 0
          [((4 : ℝ), (0 : ℝ))] :=
        SegChain.cons (s := 2 / 5) (by norm_num [onSeg]) (by norm_num)
          (SegChain.nil _)
      exact Inserted.step hseg (Inserted.single _))

/-- C2 counterexample: splitting the segment from (0,0) to (10,0) at the
off-curve cut point (5,3) inserts that raw coordinate into the pieces, so
the two pieces detour through it and their lengths sum to 2*sqrt(34), not
10 — length is not conserved for arbitrary cut points. -/
theorem split_length_conservation_cex :
    sumLengths (split_line_at_points G0 [((0 : ℝ), (0 : ℝ)), (10, 0)] [(5, 3)]) ≠
      polyLength [((0 : ℝ), (0 : ℝ)), (10, 0)] := by
  have h1 : sortedCoordsOf G0 [((0 : ℝ), (0 : ℝ)), (10, 0)] [(5, 3)] =
      [(0, 0), (5, 3)] := by
    norm_num [sortedCoordsOf, G0, List.insertionSort, List.orderedInsert,
      pairLe, ptLe]
  have h2 : sortedCutsOf G0 [((0 : ℝ), (0 : ℝ)), (10, 0)] [(5, 3)] = [1, 1] := by
    norm_num [sortedCutsOf, G0, cutsInit, List.insertionSort, List.orderedInsert,
      cutLe]
  have h3 : split_line_at_points G0 [((0 : ℝ), (0 : ℝ)), (10, 0)] [(5, 3)] =
      [[(0, 0), (5, 3)], [(5, 3), (10, 0)]] := by
    rw [split_line_at_points, h1, h2]; rfl
  rw [h3]
  have hs : Real.sqrt 34 * Real.sqrt 34 = 34 := Real.mul_self_sqrt (by norm_num)
  have hd1 : dist2 ((0 : ℝ), (0 : ℝ)) (5, 3) = Real.sqrt 34 := by
    rw [dist2]; norm_num
  have hd2 : dist2 ((5 : ℝ), (3 : ℝ)) (10, 0) = Real.sqrt 34 := by
    rw [dist2]; norm_num
  have hL : polyLength [((0 : ℝ), (0 : ℝ)), (10, 0)] = 10 := by
    simp only [polyLength]
    rw [show dist2 ((0 : ℝ), (0 : ℝ)) ((10 : ℝ), (0 : ℝ)) = Real.sqrt 100 from by
      rw [dist2]; norm_num]
    rw [sqrt_eval (by norm_num : (0 : ℝ) ≤ 10) (by norm_num)]
    norm_num
  rw [hL]
  simp only [sumLengths, List.map_cons, List.map_nil, List.sum_cons, List.sum_nil,
    polyLength, hd1, hd2]
  intro heq
  have h5 : Real.sqrt 34 = 5 := by linarith
  rw [h5] at hs
  norm_num at hs

/-- C3 counterexample: a supplied point that coincides with the existing
boundary cut at the curve's start (projected distance 0) is not dropped —
the split returns a degenerate zero-length Segment [(0,0),(0,0)]. -/
theorem split_degenerate_piece_cex :
    split_line_at_points G0 [((0 : ℝ), (0 : ℝ)), (10, 0)] [(0, 0)] =
      [[(0, 0), (0, 0)], [(0, 0), (10, 0)]] ∧
    polyLength [((0 : ℝ), (0 : ℝ)), ((0 : ℝ), (0 : ℝ))] = 0 := by
  constructor
  · have h1 : sortedCoordsOf G0 [((0 : ℝ), (0 : ℝ)), (10, 0)] [(0, 0)] =
        [(0, 0), (0, 0)] := by
      norm_num [sortedCoordsOf, G0, List.insertionSort, List.orderedInsert,
        pairLe, ptLe]
    have h2 : sortedCutsOf G0 [((0 : ℝ), (0 : ℝ)), (10, 0)] [(0, 0)] = [1, 1] := by
      norm_num [sortedCutsOf, G0, cutsInit, List.insertionSort, List.orderedInsert,
        cutLe]
    rw [split_line_at_points, h1, h2]; rfl
  · norm_num [polyLength, dist2, Real.sqrt_zero]

theorem split_pieces_positive_witness :
    0 < polyLength [((0 : ℝ), (0 : ℝ)), ((4 : ℝ), (0 : ℝ))] :=
  split_pieces_positive G0 [((0 : ℝ), (0 : ℝ)), (10, 0)] [(4, 0)]
    [((0, 0), []), ((4, 0), [])] (by simp)
    (by rw [sco_ten_four]; rfl)
    (by rw [scu_ten_four]; rfl)
    (by
      show List.Chain' (fun a b => a ≠ b) [((0 : ℝ), (0 : ℝ)), (4, 0), (10, 0)]
      refine List.chain'_cons.mpr ⟨?_, List.chain'_cons.mpr ⟨?_, ?_⟩⟩
      · simp only [ne_eq, Prod.mk.injEq, not_and]
        intro h
        norm_num at h
      · simp only [ne_eq, Prod.mk.injEq, not_and]
        intro h
        norm_num at h
      · simp)
    [((0 : ℝ), (0 : ℝ)), ((4 : ℝ), (0 : ℝ))]
    (by
      rw [split_line_at_points, sco_ten_four, scu_ten_four]
      show _ ∈ [[((0 : ℝ), (0 : ℝ)), ((4 : ℝ), (0 : ℝ))],
        [((4 : ℝ), (0 : ℝ)), ((10 : ℝ), (0 : ℝ))]]
      exact List.mem_cons_self _ _)

theorem split_empty_is_identity_witness :
    split_line_at_points G0 [((0 : ℝ), (0 : ℝ)), (4, 0), (10, 0)] [] =
      [[(0, 0), (4, 0), (10, 0)]] :=
  split_empty_is_identity G0 _ (by norm_num)
    (by
      show List.Pairwise _ [((0 : ℝ), (0 : ℝ)), ((4 : ℝ), (0 : ℝ))]
      refine List.pairwise_cons.mpr ⟨?_, by simp⟩
      intro b hb
      simp only [List.mem_singleton] at hb
      subst hb
      norm_num [G0])

theorem segment_directional_witness :
    (segment G0 [((0 : ℝ), (0 : ℝ)), (10, 0)] (7, 0) (3, 0)).head? =
      some (7, 0) ∧
    (segment G0 [((0 : ℝ), (0 : ℝ)), (10, 0)] (7, 0) (3, 0)).getLast? =
      some (3, 0) :=
  segment_directional G0 _ _ _ [((0 : ℝ), (0 : ℝ))] [] [] (10, 0)
    (Or.inr (by
      refine ⟨by simp, by simp, ?_, ?_, ?_, ?_, by simp⟩
      · norm_num [G0]
      · intro w hw
        simp only [List.mem_singleton] at hw
        subst hw
        norm_num [G0]
      · intro x hx
        simp at hx
      · intro y hy
        simp at hy))

/-- C5 (amended): `extend_line` never fails for a valid `ends` selector:
it performs no merge validation and returns whatever `linemerge` produces
— a single line, or a multi-part geometry passed through silently — even
when the extension distance is zero and the new extension segments are
degenerate. -/
theorem extend_line_never_fails (G : Geo) (l : List Pt) (d : ℝ) (ends : String)
    (_h2 : 2 ≤ l.length)
    (h : ends = "both" ∨ ends = "start" ∨ ends = "end") :
    ∃ g, extend_line G l d ends = .ok g := by
  rcases h with rfl | rfl | rfl <;> exact ⟨_, rfl⟩

/-- C5 counterexample: extending the segment from (0,0) to (1,0) by zero
distance does not fail: the two degenerate zero-length extension segments
are handed to `linemerge`, whose result is returned as an ordinary value
(here the unmerged multi-part collection) instead of an error. -/
theorem extend_line_zero_cex :
    extend_line G0 [((0 : ℝ), (0 : ℝ)), (1, 0)] 0 "both" =
      .ok (.multi [[(0, 0), (1, 0)], [(0, 0), (0, 0)], [(1, 0), (1, 0)]]) := by
  simp only [extend_line, if_pos]
  norm_num [G0]

theorem extend_line_never_fails_witness :
    2 ≤ ([((0 : ℝ), (0 : ℝ)), (1, 0)] : List Pt).length ∧
    ∃ g, extend_line G0 [((0 : ℝ), (0 : ℝ)), (1, 0)] 0 "both" = .ok g :=
  ⟨by norm_num,
    extend_line_never_fails G0 _ 0 "both" (by norm_num) (Or.inl rfl)⟩

/-- C8 (amended): with a spatial index supplied, `closest_point_along_lines`
raises the ValueError exactly when the search distance is missing or zero
(both falsy in Python); for any nonzero supplied radius it returns
normally. -/
theorem closest_point_index_radius (G : Geo) (sp : Pt) (lines : List (List Pt))
    (sd : Option ℝ) (sidx : (ℝ × ℝ × ℝ × ℝ) → List ℕ) :
    ((sd = none ∨ sd = some 0) →
      closest_point_along_lines G sp lines sd (some sidx) =
        .error "Must specify search_distance if using spatial index") ∧
    (∀ r : ℝ, sd = some r → r ≠ 0 →
      ∃ v, closest_point_along_lines G sp lines sd (some sidx) = .ok v) := by
  constructor
  · rintro (rfl | rfl)
    · rfl
    · simp only [closest_point_along_lines, if_true]
  · rintro r rfl hr
    simp only [closest_point_along_lines]
    rw [if_neg hr]
    exact ⟨_, rfl⟩

/-- C8 counterexample: a search distance of 0 is supplied together with an
index, yet `0` is falsy in Python ('if not search_distance'), so the
indexed search still raises the ValueError. -/
theorem closest_point_zero_radius_cex :
    closest_point_along_lines G0 (0, 0) [[((0 : ℝ), (0 : ℝ)), (1, 0)]] (some 0)
      (some (fun _ => [])) =
      .error "Must specify search_distance if using spatial index" := by
  simp only [closest_point_along_lines, if_true]

theorem closest_point_index_radius_witness :
    ∃ v, closest_point_along_lines G0 (0, 0) [[((0 : ℝ), (0 : ℝ)), (1, 0)]]
      (some 1) (some (fun _ => [])) = .ok v :=
  (closest_point_index_radius G0 (0, 0) [[((0 : ℝ), (0 : ℝ)), (1, 0)]]
    (some 1) (fun _ => [])).2 1 rfl (by norm_num)

/-- C9 (amended): the live `vertices_to_points` binding returns a
LineString's raw coordinates unchanged — a closed ring keeps its synthetic
closing vertex — and fails on a Polygon; only the shadowed first
definition of the same name dropped a Polygon's closing vertex. -/
theorem vertices_to_points_raw (cs ring : List Pt) :
    vertices_to_points (Geom.line cs) = .ok cs ∧
    vertices_to_points (Geom.poly ring) =
      .error "np.array cannot convert a Polygon to a coordinate array" ∧
    vertices_to_points_first (Geom.poly ring) = ring.dropLast :=
  ⟨rfl, rfl, rfl⟩

/-- C9 counterexample: passing a closed ring (a polygon boundary, with its
synthetic duplicate closing vertex) to the effective `vertices_to_points`
returns every raw coordinate: the closing vertex is not excluded. -/
theorem vertices_to_points_ring_cex :
    vertices_to_points (Geom.line [((0 : ℝ), (0 : ℝ)), (1, 0), (1, 1), (0, 0)]) =
      .ok [(0, 0), (1, 0), (1, 1), (0, 0)] ∧
    ([((0 : ℝ), (0 : ℝ)), (1, 0), (1, 1), (0, 0)] : List Pt) ≠
      [(0, 0), (1, 0), (1, 1)] := by
  refine ⟨rfl, ?_⟩
  intro h
  have hlen := congrArg List.length h
  simp at hlen

theorem G0_proj_horiz (a y b x : ℝ) (hax : a ≤ x) (hxb : x ≤ b) :
    G0.proj [(a, y), (b, y)] (x, y) = x - a := by
  show min (b - a) (max 0 (x - a)) = x - a
  rw [max_eq_right (by linarith), min_eq_right (by linarith)]

theorem G0_interp_horiz (a y b d : ℝ) (hd : 0 ≤ d) (hdb : d ≤ b - a) :
    G0.interp [(a, y), (b, y)] d = (a + d, y) := by
  show (a + min (b - a) (max 0 d), y) = (a + d, y)
  rw [max_eq_right hd, min_eq_right hdb]

theorem polyLength_horiz (a y b : ℝ) (hab : a ≤ b) :
    polyLength [(a, y), (b, y)] = b - a := by
  simp only [polyLength]
  have hd : dist2 (a, y) (b, y) = Real.sqrt ((b - a) ^ 2) := by
    rw [dist2]
    congr 1
    ring
  rw [hd, Real.sqrt_sq (by linarith)]
  ring

theorem segment_G0_horiz (a y b x1 x2 : ℝ) (ha : a < x1) (hx : x1 < x2)
    (hb : x2 < b) :
    segment G0 [(a, y), (b, y)] (x1, y) (x2, y) = [(x1, y), (x2, y)] := by
  have hp0 := G0_proj_horiz a y b a (le_refl a) (by linarith)
  have hp1 := G0_proj_horiz a y b x1 (by linarith) (by linarith)
  have hp2 := G0_proj_horiz a y b x2 (by linarith) (by linarith)
  have hsplit := split_two G0 [(a, y)] [] [] (b, y) (x1, y) (x2, y)
    [(a, y), (b, y)] [(x1, y), (x2, y)] (by simp) (by simp) (Or.inl rfl)
    (by rw [hp1, hp2]; linarith)
    (by
      intro w hw
      simp only [List.mem_singleton] at hw
      subst hw
      rw [hp0, hp1]; linarith)
    (by intro z hz; simp at hz)
    (by intro z hz; simp at hz)
    (by simp)
  have hgetD : (split_line_at_points G0 [(a, y), (b, y)]
      [(x1, y), (x2, y)]).getD 1 [] = [(x1, y), (x2, y)] := by
    rw [hsplit]; rfl
  simp only [segment, hgetD]
  have hcond : (endpointsF [(x1, y), (x2, y)]).1 = (x1, y) := rfl
  rw [if_pos hcond]

theorem shorten_G0_horiz (a y b : ℝ) (h : a + 1e-6 < b - 1e-6) :
    shorten_line G0 [(a, y), (b, y)] 1e-6 "both" =
      [(a + 1e-6, y), (b - 1e-6, y)] := by
  have he : (0 : ℝ) < 1e-6 := by norm_num
  have hab : a ≤ b := by linarith
  have hlen := polyLength_horiz a y b hab
  simp only [shorten_line, if_pos]
  rw [hlen]
  rw [G0_interp_horiz a y b _ (by norm_num) (by linarith)]
  rw [G0_interp_horiz a y b _ (by linarith) (by linarith)]
  rw [show a + (b - a - 1e-6) = b - 1e-6 by ring]
  exact segment_G0_horiz a y b _ _ (by linarith) (by linarith) (by linarith)

theorem G0_within_pair (p1 p2 : Pt) (ring : List Pt) :
    G0.withinB [p1, p2] ring =
      (decide (5 < p1.1 ∧ p1.1 < 15 ∧ -5 < p1.2 ∧ p1.2 < 5) &&
        decide (5 < p2.1 ∧ p2.1 < 15 ∧ -5 < p2.2 ∧ p2.2 < 5)) := by
  show List.all _ _ = _
  simp [List.all_cons, List.all_nil]

/-- C7: clipping the curve from (0,0) to (20,0) by the square polygon
with corners (5,-5) and (15,5), given by its boundary ring, yields
exactly the single Segment from (5,0) to (15,0): the curve is split at
the boundary crossings (5,0) and (15,0) and only the epsilon-shortened
middle piece passes the containment test. -/
theorem clip_concrete :
    clip_line_by_polygon G0 [((0 : ℝ), (0 : ℝ)), (20, 0)]
      [((5 : ℝ), (-5 : ℝ)), (15, -5), (15, 5), (5, 5), (5, -5)] =
      some (.line [(5, 0), (15, 0)]) := by
  have hp0 := G0_proj_horiz 0 0 20 0 (le_refl 0) (by norm_num)
  have hp5 := G0_proj_horiz 0 0 20 5 (by norm_num) (by norm_num)
  have hp15 := G0_proj_horiz 0 0 20 15 (by norm_num) (by norm_num)
  have hsplitL : split_line_at_points G0 [((0 : ℝ), (0 : ℝ)), (20, 0)]
      [(5, 0), (15, 0)] =
      [[(0, 0), (5, 0)], [(5, 0), (15, 0)], [(15, 0), (20, 0)]] := by
    have h := split_two G0 [((0 : ℝ), (0 : ℝ))] [] [] ((20 : ℝ), (0 : ℝ))
      ((5 : ℝ), (0 : ℝ)) ((15 : ℝ), (0 : ℝ)) [((0 : ℝ), (0 : ℝ)), (20, 0)]
      [(5, 0), (15, 0)] (by simp) (by simp) (Or.inl rfl)
      (by rw [hp5, hp15]; norm_num)
      (by
        intro w hw
        simp only [List.mem_singleton] at hw
        subst hw
        rw [hp0, hp5]; norm_num)
      (by intro z hz; simp at hz)
      (by intro z hz; simp at hz)
      (by simp)
    simpa using h
  have hs1 := shorten_G0_horiz 0 0 5 (by norm_num)
  have hs2 := shorten_G0_horiz 5 0 15 (by norm_num)
  have hs3 := shorten_G0_horiz 15 0 20 (by norm_num)
  have hw1 : G0.withinB [((0 : ℝ) + 1e-6, (0 : ℝ)), ((5 : ℝ) - 1e-6, (0 : ℝ))]
      [((5 : ℝ), (-5 : ℝ)), (15, -5), (15, 5), (5, 5), (5, -5)] = false := by
    rw [G0_within_pair, decide_eq_false (by norm_num)]
    rfl
  have hw2 : G0.withinB [((5 : ℝ) + 1e-6, (0 : ℝ)), ((15 : ℝ) - 1e-6, (0 : ℝ))]
      [((5 : ℝ), (-5 : ℝ)), (15, -5), (15, 5), (5, 5), (5, -5)] = true := by
    rw [G0_within_pair, decide_eq_true (by norm_num), decide_eq_true (by norm_num)]
    rfl
  have hw3 : G0.withinB [((15 : ℝ) + 1e-6, (0 : ℝ)), ((20 : ℝ) - 1e-6, (0 : ℝ))]
      [((5 : ℝ), (-5 : ℝ)), (15, -5), (15, 5), (5, 5), (5, -5)] = false := by
    rw [G0_within_pair, decide_eq_false (by norm_num)]
    rfl
  have hib : G0.intersectsB [((0 : ℝ), (0 : ℝ)), (20, 0)]
      [((5 : ℝ), (-5 : ℝ)), (15, -5), (15, 5), (5, 5), (5, -5)] = true := rfl
  have hip : G0.intersectionPts [((0 : ℝ), (0 : ℝ)), (20, 0)]
      [((5 : ℝ), (-5 : ℝ)), (15, -5), (15, 5), (5, 5), (5, -5)] =
      [(5, 0), (15, 0)] := rfl
  simp only [clip_line_by_polygon, split_line_at_intersection, hib, hip,
    hsplitL, if_true, List.filter_cons, List.filter_nil, hs1, hw1, hs2, hw2,
    hs3, hw3]
  rfl

end StreetSpace
